import Mathlib

/-!
# Verification of the merged-PR extraction pipeline

A shallow embedding, in Lean 4, of the GitHub merged-pull-request ETL in this
repository:

* `src/extract.py`   — `getReviews`, `getCheckStatus`, `getMergedPRs`
* `src/extraction.py`— an older variant of the same pipeline, identical except
  that its `getMergedPRs` passes `pr["merge_commit_sha"]` (not
  `pr["head"]["sha"]`) to `getCheckStatus`
* `src/transform.py` — `transformPRData`

Modelling conventions:

* JSON payloads are embedded at the level of their parsed content: a review
  event is its `(user.login, state)` pair, a check run is its optional
  `conclusion` field, a pull-request item is the tuple of fields the code
  reads.  ISO-8601 timestamp strings such as `"2024-01-02T10:30:00Z"` are
  embedded as their parsed calendar tuple (`strptime` is a bijection between
  well-formed strings and these tuples), so string parsing itself is not
  re-modelled.
* HTTP transport is an oracle: a `Github` value holds the listing endpoint's
  successive page responses and the responses of the review and check-run
  endpoints; each response either succeeds with a payload or fails, which
  models `requests` raising on a non-2xx response (`raise_for_status`).
* `getMergedPRs` is embedded as a pure function from the oracle to an
  `ExtractResult` which records, besides the returned record list, the query
  parameters of every listing request issued, the commit SHA of every
  check-run request issued, the transport failure logged by the
  `except requests.exceptions.RequestException` handler (if any), and the
  number of snapshot-file writes performed (the `json.dump` sits after the
  `try`/`except` block and runs exactly once whenever the function returns).
  The `ValueError` raised when no token is configured aborts before any
  request; the embedding models credentialed runs.
-/

/-- A timezone-naive calendar timestamp, the parsed content of a
`"%Y-%m-%dT%H:%M:%SZ"` string (what `datetime.strptime` yields: the `Z` is a
literal in the format string, so the result is naive UTC wall-clock time). -/
structure DateTime where
  year : Nat
  month : Nat
  day : Nat
  hour : Nat
  minute : Nat
  second : Nat
deriving DecidableEq, Repr

/-- Strict comparison of naive timestamps, field-lexicographic — the order
Python's `datetime` comparison implements on valid dates. -/
def DateTime.lt (a b : DateTime) : Bool :=
  if a.year ≠ b.year then decide (a.year < b.year)
  else if a.month ≠ b.month then decide (a.month < b.month)
  else if a.day ≠ b.day then decide (a.day < b.day)
  else if a.hour ≠ b.hour then decide (a.hour < b.hour)
  else if a.minute ≠ b.minute then decide (a.minute < b.minute)
  else decide (a.second < b.second)

/-- A calendar date, the parsed content of a `"%Y-%m-%d"` string (the
`--since`/`--until` arguments). -/
structure Date where
  year : Nat
  month : Nat
  day : Nat
deriving DecidableEq, Repr

/-- `datetime.strptime(d, "%Y-%m-%d")`: midnight (00:00:00) of the day, which
is how `getMergedPRs` turns a date bound into a comparable timestamp. -/
def Date.midnight (d : Date) : DateTime :=
  ⟨d.year, d.month, d.day, 0, 0, 0⟩

/-- A timestamp that carries a UTC marker: the parsed content of the
`Z`-suffixed ISO-8601 strings GitHub serves in `created_at` / `merged_at` and
that the snapshot file stores verbatim.  `pd.to_datetime` parses such a string
to a tz-aware UTC timestamp; `.dt.tz_localize(None)` strips the marker,
leaving the naive UTC wall clock `dt`. -/
structure UtcTimestamp where
  dt : DateTime
deriving DecidableEq, Repr

/-- One review event, reduced to the two fields `getReviews` reads:
`review["user"]["login"]` and `review["state"]`.  States are the GitHub API's
literal constants, e.g. `"APPROVED"`, `"CHANGES_REQUESTED"`. -/
structure Review where
  user : String
  state : String
deriving DecidableEq, Repr

/-- One check run, reduced to the field `getCheckStatus` reads:
`run.get("conclusion")`, `none` when the conclusion is null or absent
(in-progress runs). -/
structure CheckRun where
  conclusion : Option String
deriving DecidableEq, Repr

/-- `latestReviewPerUser[user] = state` on a Python `dict`: update the value
in place when the key is present (insertion order preserved), append a new
entry otherwise. -/
def updateLatest (m : List (String × String)) (user state : String) :
    List (String × String) :=
  if m.any (fun p => p.1 = user) then
    m.map (fun p => if p.1 = user then (user, state) else p)
  else
    m ++ [(user, state)]

/-- The `for review in reviews` loop of `getReviews`: fold the fetched review
list, in list order, into the `latestReviewPerUser` dict. -/
def latestReviewPerUser (reviews : List Review) : List (String × String) :=
  reviews.foldl (fun m r => updateLatest m r.user r.state) []

/-- `getReviews` (src/extract.py:31 and src/extraction.py:9), applied to the
decoded response body: returns
`(any(state == "APPROVED" ...), len(latestReviewPerUser))`. -/
def getReviews (reviews : List Review) : Bool × Nat :=
  let m := latestReviewPerUser reviews
  (m.any (fun p => p.2 = "APPROVED"), m.length)

/-- `getCheckStatus` (src/extract.py:62 and src/extraction.py:28), applied to
the decoded `check_runs` list: `False` on an empty list, otherwise
`all(run.get("conclusion") == "success" ...)`. -/
def getCheckStatus (checkRuns : List CheckRun) : Bool :=
  if checkRuns.isEmpty then false
  else checkRuns.all (fun r => r.conclusion = some "success")

/-- Dict lookup on the association-list model: the value at the first entry
whose key matches. -/
def lookupUser : List (String × String) → String → Option String
  | [], _ => none
  | p :: rest, u => if p.1 = u then some p.2 else lookupUser rest u

/-- The specification's reading of "latest review state": the state of the
last review event by `u` in the fetched list, `none` when `u` submitted no
review. -/
def latestState : List Review → String → Option String
  | [], _ => none
  | r :: rest, u =>
    match latestState rest u with
    | some s => some s
    | none => if r.user = u then some r.state else none

/-! ### The extraction pipeline -/

/-- A transport failure: `requests.exceptions.RequestException`, as raised by
`raise_for_status()` on a non-2xx response (carrying the status code) or by a
network failure. -/
inductive TransportError where
  | http : Nat → TransportError
  | network : TransportError
deriving DecidableEq, Repr

/-- One pull-request item of a listing page, reduced to the fields
`getMergedPRs` reads: `number`, `title`, `user.login`, `created_at`,
`merged_at` (null for closed-but-unmerged PRs), `head.sha`, and
`merge_commit_sha`. -/
structure PRItem where
  number : Nat
  title : String
  author : String
  created_at : UtcTimestamp
  merged_at : Option UtcTimestamp
  head_sha : String
  merge_commit_sha : String
deriving DecidableEq, Repr

/-- One `prInfo` dict as assembled by `getMergedPRs` and serialized into the
snapshot JSON file. -/
structure PRRecord where
  PRNum : Nat
  Title : String
  Author : String
  CreatedAt : UtcTimestamp
  MergedAt : UtcTimestamp
  Num_Reviewers : Nat
  CR_Passed : Bool
  Checks_Passed : Bool
deriving DecidableEq, Repr

/-- The transport oracle: `listing` holds the successive responses of
`GET /repos/{repo}/pulls` for pages 1, 2, …; `reviews n` the response of
`GET /repos/{repo}/pulls/{n}/reviews`; `checks sha` the response of
`GET /repos/{repo}/commits/{sha}/check-runs`.  The page loop in the source
runs until an empty page or a raised transport error; every trace examined by
the theorems below contains such a terminator, so the recursion over the
trace list is structural. -/
structure Github where
  listing : List (Except TransportError (List PRItem))
  reviews : Nat → Except TransportError (List Review)
  checks : String → Except TransportError (List CheckRun)

/-- `since and mergedAt < datetime.strptime(since, "%Y-%m-%d")`: the
first `continue` guard of the date filter. -/
def beforeSince (since : Option Date) (t : DateTime) : Bool :=
  match since with
  | none => false
  | some s => DateTime.lt t s.midnight

/-- `until and mergedAt > datetime.strptime(until, "%Y-%m-%d")`: the
second `continue` guard of the date filter. -/
def afterUntil (untilD : Option Date) (t : DateTime) : Bool :=
  match untilD with
  | none => false
  | some u => DateTime.lt u.midnight t

/-- A merge timestamp passes the date filter: neither `continue` guard
fires. -/
def passesFilter (since untilD : Option Date) (t : DateTime) : Bool :=
  !beforeSince since t && !afterUntil untilD t

/-- A listed pull-request item survives the merged/date filters: its
`merged_at` is non-null and the merge timestamp passes the window. -/
def survives (since untilD : Option Date) (pr : PRItem) : Bool :=
  match pr.merged_at with
  | none => false
  | some m => passesFilter since untilD m.dt

/-- The query parameters of one listing request:
`params = {"state": "closed", "perPage": perPage}` with `params["page"]`
set to the current page number before each `requests.get`. -/
def listingParams (perPage page : Nat) : List (String × String) :=
  [("state", "closed"), ("perPage", toString perPage),
   ("page", toString page)]

/-- The `for pr in data` loop body of `getMergedPRs`, over one page's items:
skip items without `merged_at`, skip items outside the window, and for
surviving items call the review endpoint and the check-run endpoint (on
`shaOf pr` — `pr["head"]["sha"]` in src/extract.py, `pr["merge_commit_sha"]`
in src/extraction.py) and assemble `prInfo`.  Returns the records appended by
this page, the SHAs of the check-run requests issued, and the first transport
error raised (which aborts the loop, leaving later items unprocessed). -/
def processItems (gh : Github) (shaOf : PRItem → String)
    (since untilD : Option Date) :
    List PRItem → List PRRecord × List String × Option TransportError
  | [] => ([], [], none)
  | pr :: rest =>
    match pr.merged_at with
    | none => processItems gh shaOf since untilD rest
    | some mergedAt =>
      if beforeSince since mergedAt.dt then
        processItems gh shaOf since untilD rest
      else if afterUntil untilD mergedAt.dt then
        processItems gh shaOf since untilD rest
      else
        match gh.reviews pr.number with
        | .error e => ([], [], some e)
        | .ok reviews =>
          let ar := getReviews reviews
          match gh.checks (shaOf pr) with
          | .error e => ([], [shaOf pr], some e)
          | .ok checkRuns =>
            let prInfo : PRRecord :=
              { PRNum := pr.number, Title := pr.title, Author := pr.author,
                CreatedAt := pr.created_at, MergedAt := mergedAt,
                Num_Reviewers := ar.2, CR_Passed := ar.1,
                Checks_Passed := getCheckStatus checkRuns }
            let tail := processItems gh shaOf since untilD rest
            (prInfo :: tail.1, shaOf pr :: tail.2.1, tail.2.2)

/-- The `while True` page loop of `getMergedPRs`, starting at `page`: request
the next page (logging its query parameters), stop on a transport error or an
empty page, otherwise process the page's items and continue with `page + 1`.
Returns the records assembled, the listing requests issued, the check-run
SHAs requested, and the transport error caught by the handler (if any). -/
def processPages (gh : Github) (shaOf : PRItem → String)
    (since untilD : Option Date) (perPage : Nat) :
    List (Except TransportError (List PRItem)) → Nat →
    List PRRecord × List (List (String × String)) × List String ×
      Option TransportError
  | [], _ => ([], [], [], none)
  | resp :: rest, page =>
    let req := listingParams perPage page
    match resp with
    | .error e => ([], [req], [], some e)
    | .ok data =>
      if data.isEmpty then ([], [req], [], none)
      else
        match processItems gh shaOf since untilD data with
        | (recs, shas, some e) => (recs, [req], shas, some e)
        | (recs, shas, none) =>
          let tail := processPages gh shaOf since untilD perPage rest (page + 1)
          (recs ++ tail.1, req :: tail.2.1, shas ++ tail.2.2.1, tail.2.2.2)

/-- The observable outcome of one `getMergedPRs` invocation: the `PRs` list
(returned to the caller and serialized by `json.dump`), the listing requests
issued, the check-run SHAs requested, the transport failure logged by the
`except` handler, and the number of snapshot-file writes. -/
structure ExtractResult where
  records : List PRRecord
  requests : List (List (String × String))
  checkShas : List String
  error : Option TransportError
  writes : Nat
deriving Repr

/-- `getMergedPRs` of src/extract.py:88: the page loop starting at page 1,
followed by the single unconditional `json.dump` of the assembled `PRs` list
(the dump sits after the `try`/`except`, so it runs exactly once whether the
loop completed or a transport error was caught).  The check-run endpoint is
called with `pr["head"]["sha"]`. -/
def Extract.getMergedPRs (gh : Github) (perPage : Nat)
    (since untilD : Option Date) : ExtractResult :=
  let r := processPages gh (fun pr => pr.head_sha) since untilD perPage
    gh.listing 1
  { records := r.1, requests := r.2.1, checkShas := r.2.2.1,
    error := r.2.2.2, writes := 1 }

/-- `getMergedPRs` of src/extraction.py:43: identical to the src/extract.py
pipeline except that the check-run endpoint is called with
`pr["merge_commit_sha"]`. -/
def Extraction.getMergedPRs (gh : Github) (perPage : Nat)
    (since untilD : Option Date) : ExtractResult :=
  let r := processPages gh (fun pr => pr.merge_commit_sha) since untilD perPage
    gh.listing 1
  { records := r.1, requests := r.2.1, checkShas := r.2.2.1,
    error := r.2.2.2, writes := 1 }

/-! ### The transform stage -/

/-- Civil-calendar day number (proleptic Gregorian): days since 0000-03-01.
`1970-01-01` is day `719468`.  This linearization underlies the timestamp
difference that `pandas` computes on `datetime64` values. -/
def daysFromCivil (y m d : Nat) : Nat :=
  let yAdj := if m ≤ 2 then y - 1 else y
  let era := yAdj / 400
  let yoe := yAdj % 400
  let mp := (m + 9) % 12
  let doy := (153 * mp + 2) / 5 + d - 1
  let doe := yoe * 365 + yoe / 4 - yoe / 100 + doy
  era * 146097 + doe

/-- Seconds since the Unix epoch of a naive timestamp; timestamp subtraction
(`df["MergedAt"] - df["CreatedAt"]`, a `timedelta`) is the difference of
these. -/
def toEpochSec (t : DateTime) : Int :=
  ((daysFromCivil t.year t.month t.day : Int) - 719468) * 86400
    + t.hour * 3600 + t.minute * 60 + t.second

/-- `pd.to_datetime(col, errors="coerce").dt.tz_localize(None)` on a
`Z`-suffixed ISO-8601 column: parse to tz-aware UTC, then strip the timezone,
leaving the naive UTC wall clock.  (`errors="coerce"` would yield a null for
a malformed string; snapshots written by `getMergedPRs` only contain
well-formed timestamps, which is the case this development covers.) -/
def tz_localize_none (t : UtcTimestamp) : DateTime := t.dt

/-- One row of the transformed DataFrame: the seven snapshot columns (the two
timestamp columns now parsed and timezone-naive) plus the two derived
columns.  `TimeToMerge` is the `timedelta` in seconds. -/
structure TransformedRow where
  PRNum : Nat
  Title : String
  Author : String
  CreatedAt : DateTime
  MergedAt : DateTime
  Num_Reviewers : Nat
  CR_Passed : Bool
  Checks_Passed : Bool
  AllQualityGatesPassed : Bool
  TimeToMerge : Int
deriving DecidableEq, Repr

/-- The column assignments of `transformPRData` (src/transform.py:25), per
row: parse and tz-strip the two timestamp columns, keep the remaining columns
(`astype(bool)` is the identity on booleans), add
`AllQualityGatesPassed = CR_Passed & Checks_Passed` and
`TimeToMerge = MergedAt - CreatedAt`. -/
def transformRow (r : PRRecord) : TransformedRow :=
  let createdAt := tz_localize_none r.CreatedAt
  let mergedAt := tz_localize_none r.MergedAt
  { PRNum := r.PRNum, Title := r.Title, Author := r.Author,
    CreatedAt := createdAt, MergedAt := mergedAt,
    Num_Reviewers := r.Num_Reviewers, CR_Passed := r.CR_Passed,
    Checks_Passed := r.Checks_Passed,
    AllQualityGatesPassed := r.CR_Passed && r.Checks_Passed,
    TimeToMerge := toEpochSec mergedAt - toEpochSec createdAt }

/-- `transformPRData` (src/transform.py:25) on the parsed snapshot record
sequence: an empty DataFrame is returned unchanged (only a warning is
logged — and `processRawFiles` never calls the function on one); otherwise
every row is transformed in place, preserving row order. -/
def transformPRData (rows : List PRRecord) : List TransformedRow :=
  if rows.isEmpty then [] else rows.map transformRow

/-! ### Specification-side helpers for the theorems -/

/-- The all-zero timestamp, used only as the (never reached) default of
`Option.getD` in `mkRecord`. -/
def dtZero : DateTime := ⟨0, 0, 0, 0, 0, 0⟩

/-- A transport oracle none of whose calls fails: page responses `trace`,
review endpoint `revs`, check-run endpoint `chks`. -/
def mkOkGithub (trace : List (Except TransportError (List PRItem)))
    (revs : Nat → List Review) (chks : String → List CheckRun) : Github :=
  { listing := trace, reviews := fun n => Except.ok (revs n),
    checks := fun sha => Except.ok (chks sha) }

/-- The record `getMergedPRs` assembles for a surviving item `pr` when no
call fails: review data from `revs pr.number`, check data from the SHA
`shaOf pr`. -/
def mkRecord (revs : Nat → List Review) (chks : String → List CheckRun)
    (shaOf : PRItem → String) (pr : PRItem) : PRRecord :=
  { PRNum := pr.number, Title := pr.title, Author := pr.author,
    CreatedAt := pr.created_at, MergedAt := pr.merged_at.getD ⟨dtZero⟩,
    Num_Reviewers := (getReviews (revs pr.number)).2,
    CR_Passed := (getReviews (revs pr.number)).1,
    Checks_Passed := getCheckStatus (chks (shaOf pr)) }

/-- A prefix of listing responses that the page loop runs through without
stopping: every response is a non-empty page whose items are all processed
without a transport failure. -/
def ConsumesAll (gh : Github) (shaOf : PRItem → String)
    (since untilD : Option Date)
    (trace : List (Except TransportError (List PRItem))) : Prop :=
  ∀ resp ∈ trace, ∃ data, resp = Except.ok data ∧ data ≠ [] ∧
    (processItems gh shaOf since untilD data).2.2 = none

/-! ### Concrete instances used by counterexamples and witnesses -/

/-- A pull request merged at 10:00 on 2024-01-02, with distinct head and
merge-commit SHAs. -/
def prJan2 : PRItem :=
  { number := 7, title := "Add retry", author := "alice",
    created_at := ⟨⟨2024, 1, 1, 9, 0, 0⟩⟩,
    merged_at := some ⟨⟨2024, 1, 2, 10, 0, 0⟩⟩,
    head_sha := "headsha", merge_commit_sha := "mergesha" }

/-- Review history: user `A` requests changes, then approves. -/
def okReviews : List Review := [⟨"A", "CHANGES_REQUESTED"⟩, ⟨"A", "APPROVED"⟩]

/-- A single successful check run. -/
def okChecks : List CheckRun := [⟨some "success"⟩]

/-- A healthy one-page repository: page 1 holds `prJan2`, page 2 is the
empty terminator. -/
def ghSample : Github :=
  { listing := [Except.ok [prJan2], Except.ok []],
    reviews := fun _ => Except.ok okReviews,
    checks := fun _ => Except.ok okChecks }

/-- The record the pipeline assembles for `prJan2` under `ghSample`. -/
def recJan2 : PRRecord :=
  { PRNum := 7, Title := "Add retry", Author := "alice",
    CreatedAt := ⟨⟨2024, 1, 1, 9, 0, 0⟩⟩,
    MergedAt := ⟨⟨2024, 1, 2, 10, 0, 0⟩⟩,
    Num_Reviewers := 1, CR_Passed := true, Checks_Passed := true }

/-- Like `ghSample`, but the review endpoint fails. -/
def ghRevErr : Github :=
  { listing := [Except.ok [prJan2]],
    reviews := fun _ => Except.error TransportError.network,
    checks := fun _ => Except.ok okChecks }

/-- Like `ghSample`, but the check-run endpoint fails. -/
def ghChkErr : Github :=
  { listing := [Except.ok [prJan2]],
    reviews := fun _ => Except.ok okReviews,
    checks := fun _ => Except.error TransportError.network }

/-! ### Association-list lemmas for the review fold -/

theorem lookupUser_append_single (m : List (String × String)) (u s v : String)
    (h : m.any (fun p => p.1 = u) = false) :
    lookupUser (m ++ [(u, s)]) v = if v = u then some s else lookupUser m v := by
  induction m with
  | nil =>
    by_cases hv : v = u
    · subst hv
      simp [lookupUser]
    · have huv : ¬ u = v := fun h => hv h.symm
      simp [lookupUser, hv, huv]
  | cons p rest ih =>
    simp only [List.any_cons, Bool.or_eq_false_iff, decide_eq_false_iff_not] at h
    by_cases hpv : p.1 = v
    · have hvu : ¬ v = u := fun hvu => h.1 (hvu ▸ hpv)
      simp [lookupUser, hpv, hvu]
    · simp [lookupUser, hpv, ih h.2]

theorem lookupUser_map_ne (m : List (String × String)) (u s v : String)
    (hv : ¬ v = u) :
    lookupUser (m.map (fun p => if p.1 = u then (u, s) else p)) v =
      lookupUser m v := by
  induction m with
  | nil => rfl
  | cons p rest ih =>
    by_cases hp : p.1 = u
    · have huv : ¬ u = v := fun h => hv h.symm
      have hpv : ¬ p.1 = v := fun h => hv (hp ▸ h : u = v).symm
      simp [lookupUser, hp, huv, hpv, ih]
    · by_cases hpv : p.1 = v <;> simp [lookupUser, hp, hpv, hv, ih]

theorem lookupUser_map_eq (m : List (String × String)) (u s : String)
    (h : m.any (fun p => p.1 = u) = true) :
    lookupUser (m.map (fun p => if p.1 = u then (u, s) else p)) u = some s := by
  induction m with
  | nil => simp at h
  | cons p rest ih =>
    by_cases hp : p.1 = u
    · simp [lookupUser, hp]
    · simp only [List.any_cons, Bool.or_eq_true_iff, decide_eq_true_eq] at h
      rcases h with h | h
      · exact absurd h hp
      · simp [lookupUser, hp, ih h]

theorem lookupUser_updateLatest (m : List (String × String)) (u s v : String) :
    lookupUser (updateLatest m u s) v =
      if v = u then some s else lookupUser m v := by
  unfold updateLatest
  by_cases hg : m.any (fun p => p.1 = u) = true
  · rw [if_pos hg]
    by_cases hv : v = u
    · subst hv
      simp [lookupUser_map_eq m v s hg]
    · simp [lookupUser_map_ne m u s v hv, hv]
  · rw [if_neg hg]
    exact lookupUser_append_single m u s v
      (by simp only [Bool.not_eq_true] at hg; exact hg)

theorem lookupUser_foldl (reviews : List Review) (m : List (String × String))
    (u : String) :
    lookupUser (reviews.foldl (fun m r => updateLatest m r.user r.state) m) u =
      match latestState reviews u with
      | some s => some s
      | none => lookupUser m u := by
  induction reviews generalizing m with
  | nil => rfl
  | cons r rest ih =>
    simp only [List.foldl_cons, latestState, ih]
    cases latestState rest u with
    | some s => rfl
    | none =>
      simp only [lookupUser_updateLatest]
      by_cases hru : r.user = u
      · simp [hru]
      · have : ¬ u = r.user := fun h => hru h.symm
        simp [hru, this]

theorem lookupUser_latestReviewPerUser (reviews : List Review) (u : String) :
    lookupUser (latestReviewPerUser reviews) u = latestState reviews u := by
  unfold latestReviewPerUser
  rw [lookupUser_foldl]
  cases latestState reviews u <;> rfl

theorem any_key_iff (m : List (String × String)) (u : String) :
    m.any (fun p => p.1 = u) = true ↔ u ∈ m.map Prod.fst := by
  simp only [List.any_eq_true, List.mem_map, decide_eq_true_eq]

theorem keys_updateLatest (m : List (String × String)) (u s : String) :
    (updateLatest m u s).map Prod.fst =
      if m.any (fun p => p.1 = u) then m.map Prod.fst
      else m.map Prod.fst ++ [u] := by
  unfold updateLatest
  by_cases hg : m.any (fun p => p.1 = u) = true
  · rw [if_pos hg, if_pos hg, List.map_map]
    apply List.map_congr_left
    intro p _
    by_cases hp : p.1 = u <;> simp [hp]
  · rw [if_neg hg, if_neg hg]
    simp

theorem length_updateLatest (m : List (String × String)) (u s : String) :
    (updateLatest m u s).length =
      if m.any (fun p => p.1 = u) then m.length else m.length + 1 := by
  unfold updateLatest
  by_cases hg : m.any (fun p => p.1 = u) = true
  · simp [hg]
  · simp [hg]

theorem keys_foldl_nodup_mem (reviews : List Review)
    (m : List (String × String)) (hm : (m.map Prod.fst).Nodup) :
    ((reviews.foldl (fun m r => updateLatest m r.user r.state) m).map
        Prod.fst).Nodup ∧
    ∀ u, u ∈ (reviews.foldl (fun m r => updateLatest m r.user r.state) m).map
        Prod.fst ↔ u ∈ m.map Prod.fst ∨ u ∈ reviews.map Review.user := by
  induction reviews generalizing m with
  | nil =>
    refine ⟨hm, fun u => ?_⟩
    simp
  | cons r rest ih =>
    simp only [List.foldl_cons]
    have hstep : ((updateLatest m r.user r.state).map Prod.fst).Nodup := by
      rw [keys_updateLatest]
      by_cases hg : m.any (fun p => p.1 = r.user) = true
      · simpa [hg] using hm
      · rw [if_neg hg]
        have hnot : r.user ∉ m.map Prod.fst := fun hmem =>
          hg ((any_key_iff m r.user).mpr hmem)
        simp [List.nodup_append, hm, hnot]
    obtain ⟨hn, hmem⟩ := ih (updateLatest m r.user r.state) hstep
    refine ⟨hn, fun u => ?_⟩
    rw [hmem u, keys_updateLatest]
    by_cases hg : m.any (fun p => p.1 = r.user) = true
    · have hin : r.user ∈ m.map Prod.fst := (any_key_iff m r.user).mp hg
      simp only [if_pos hg, List.map_cons, List.mem_cons]
      constructor
      · rintro (h | h)
        · exact Or.inl h
        · exact Or.inr (Or.inr h)
      · rintro (h | h | h)
        · exact Or.inl h
        · exact Or.inl (h ▸ hin)
        · exact Or.inr h
    · simp only [if_neg hg, List.mem_append, List.mem_singleton, List.map_cons,
        List.mem_cons]
      tauto

theorem lookupUser_of_mem_nodup (m : List (String × String))
    (hm : (m.map Prod.fst).Nodup) (p : String × String) (hp : p ∈ m) :
    lookupUser m p.1 = some p.2 := by
  induction m with
  | nil => cases hp
  | cons q rest ih =>
    simp only [List.map_cons, List.nodup_cons] at hm
    rcases List.mem_cons.mp hp with h | h
    · subst h
      simp [lookupUser]
    · have hq : ¬ q.1 = p.1 := fun he =>
        hm.1 (he ▸ (List.mem_map.mpr ⟨p, h, rfl⟩))
      simp only [lookupUser, if_neg hq]
      exact ih hm.2 h

theorem lookupUser_some_mem (m : List (String × String)) (u s : String)
    (h : lookupUser m u = some s) : ∃ p ∈ m, p.1 = u ∧ p.2 = s := by
  induction m with
  | nil => cases h
  | cons q rest ih =>
    by_cases hq : q.1 = u
    · simp only [lookupUser, if_pos hq, Option.some_inj] at h
      exact ⟨q, List.mem_cons_self q rest, hq, h⟩
    · simp only [lookupUser, if_neg hq] at h
      obtain ⟨p, hp, he⟩ := ih h
      exact ⟨p, List.mem_cons_of_mem q hp, he⟩

theorem latestReviewPerUser_keys_nodup (reviews : List Review) :
    ((latestReviewPerUser reviews).map Prod.fst).Nodup :=
  (keys_foldl_nodup_mem reviews [] (by simp)).1

theorem latestReviewPerUser_length (reviews : List Review) :
    (latestReviewPerUser reviews).length =
      (reviews.map Review.user).dedup.length := by
  obtain ⟨hn, hmem⟩ := keys_foldl_nodup_mem reviews [] (by simp)
  have hlen : (latestReviewPerUser reviews).length =
      ((latestReviewPerUser reviews).map Prod.fst).length :=
    (List.length_map _ _).symm
  have hfin : ((latestReviewPerUser reviews).map Prod.fst).toFinset =
      (reviews.map Review.user).toFinset := by
    apply Finset.ext
    intro u
    simp only [List.mem_toFinset]
    simpa using hmem u
  calc (latestReviewPerUser reviews).length
      = ((latestReviewPerUser reviews).map Prod.fst).length := hlen
    _ = ((latestReviewPerUser reviews).map Prod.fst).toFinset.card :=
        (List.toFinset_card_of_nodup hn).symm
    _ = (reviews.map Review.user).toFinset.card := by rw [hfin]
    _ = (reviews.map Review.user).dedup.length := List.card_toFinset _

theorem getReviews_approved_iff (reviews : List Review) :
    (getReviews reviews).1 = true ↔
      ∃ u, latestState reviews u = some "APPROVED" := by
  unfold getReviews
  simp only [List.any_eq_true, decide_eq_true_eq]
  constructor
  · rintro ⟨p, hp, he⟩
    refine ⟨p.1, ?_⟩
    rw [← lookupUser_latestReviewPerUser]
    rw [lookupUser_of_mem_nodup _ (latestReviewPerUser_keys_nodup reviews) p hp]
    exact congrArg some he
  · rintro ⟨u, hu⟩
    rw [← lookupUser_latestReviewPerUser] at hu
    obtain ⟨p, hp, hk, hv⟩ := lookupUser_some_mem _ u _ hu
    exact ⟨p, hp, hv⟩

/-- C1: for every list of review events, `getReviews` folds the events in
list order into the `latestReviewPerUser` mapping (last state wins per
reviewer: the mapping's value at each user is the state of that user's last
event in the list), its reviewer count is the number of distinct reviewer
identities, and its approval flag is true iff some reviewer's latest state is
the approved state (the API's literal constant `"APPROVED"`, which the
specification writes in lowercase); in particular user `A` submitting
`"CHANGES_REQUESTED"` then `"APPROVED"` yields approval with `A` counted
once. -/
theorem C1_review_fold_last_state_wins (reviews : List Review) :
    (∀ u, lookupUser (latestReviewPerUser reviews) u = latestState reviews u)
    ∧ ((getReviews reviews).1 = true ↔
        ∃ u, latestState reviews u = some "APPROVED")
    ∧ (getReviews reviews).2 = (reviews.map Review.user).dedup.length
    ∧ getReviews [⟨"A", "CHANGES_REQUESTED"⟩, ⟨"A", "APPROVED"⟩] = (true, 1) :=
  ⟨fun u => lookupUser_latestReviewPerUser reviews u,
   getReviews_approved_iff reviews,
   latestReviewPerUser_length reviews,
   by decide⟩

/-- C2: `getCheckStatus` returns `false` on an empty check-run list, and on a
non-empty list it returns `true` iff every entry's conclusion equals
`"success"` (a missing/null conclusion, `none`, also falsifies it). -/
theorem C2_check_aggregation :
    getCheckStatus [] = false
    ∧ ∀ checkRuns : List CheckRun,
        (getCheckStatus checkRuns = true ↔
          checkRuns ≠ [] ∧ ∀ r ∈ checkRuns, r.conclusion = some "success") := by
  refine ⟨rfl, fun checkRuns => ?_⟩
  unfold getCheckStatus
  cases checkRuns with
  | nil => simp
  | cons r rest => simp [List.all_eq_true]

/-! ### Item-loop lemmas -/

theorem processItems_records_sound (gh : Github) (shaOf : PRItem → String)
    (s u : Option Date) :
    ∀ items r, r ∈ (processItems gh shaOf s u items).1 →
      ∃ pr ∈ items, pr.merged_at = some r.MergedAt
        ∧ passesFilter s u r.MergedAt.dt = true := by
  intro items
  induction items with
  | nil =>
    intro r hr
    simp [processItems] at hr
  | cons pr rest ih =>
    intro r hr
    simp only [processItems] at hr
    split at hr
    · obtain ⟨q, hq, hqq⟩ := ih r hr
      exact ⟨q, List.mem_cons_of_mem pr hq, hqq⟩
    · rename_i mergedAt hm
      split at hr
      · obtain ⟨q, hq, hqq⟩ := ih r hr
        exact ⟨q, List.mem_cons_of_mem pr hq, hqq⟩
      · rename_i hb
        split at hr
        · obtain ⟨q, hq, hqq⟩ := ih r hr
          exact ⟨q, List.mem_cons_of_mem pr hq, hqq⟩
        · rename_i ha
          split at hr
          · simp at hr
          · rename_i reviews hrev
            split at hr
            · simp at hr
            · rename_i checkRuns hchk
              simp only [List.mem_cons] at hr
              rcases hr with hr | hr
              · subst hr
                refine ⟨pr, List.mem_cons_self pr rest, hm, ?_⟩
                simp only [passesFilter]
                rw [Bool.not_eq_true] at hb ha
                simp [hb, ha]
              · obtain ⟨q, hq, hqq⟩ := ih r hr
                exact ⟨q, List.mem_cons_of_mem pr hq, hqq⟩

theorem processItems_append_ok (gh : Github) (shaOf : PRItem → String)
    (s u : Option Date) (xs ys : List PRItem)
    (h : (processItems gh shaOf s u xs).2.2 = none) :
    processItems gh shaOf s u (xs ++ ys) =
      ((processItems gh shaOf s u xs).1 ++ (processItems gh shaOf s u ys).1,
       (processItems gh shaOf s u xs).2.1 ++
         (processItems gh shaOf s u ys).2.1,
       (processItems gh shaOf s u ys).2.2) := by
  induction xs with
  | nil => simp [processItems]
  | cons pr xs' ih =>
    cases hm : pr.merged_at with
    | none =>
      simp only [processItems, hm, List.cons_append] at h ⊢
      exact ih h
    | some mergedAt =>
      by_cases hb : beforeSince s mergedAt.dt = true
      · simp only [processItems, hm, hb, if_true, List.cons_append] at h ⊢
        exact ih h
      · by_cases ha : afterUntil u mergedAt.dt = true
        · simp only [processItems, hm, hb, ha, if_true, if_false,
            List.cons_append, Bool.false_eq_true] at h ⊢
          exact ih h
        · cases hrev : gh.reviews pr.number with
          | error e =>
            simp only [processItems, hm, hb, ha, hrev, List.cons_append,
              if_false, Bool.false_eq_true] at h ⊢
            cases h
          | ok reviews =>
            cases hchk : gh.checks (shaOf pr) with
            | error e =>
              simp only [processItems, hm, hb, ha, hrev, hchk,
                List.cons_append, if_false, Bool.false_eq_true] at h ⊢
              cases h
            | ok checkRuns =>
              simp only [processItems, hm, hb, ha, hrev, hchk,
                List.cons_append, if_false, Bool.false_eq_true] at h ⊢
              simp only [List.append_eq]
              rw [ih h]

theorem processItems_append_err (gh : Github) (shaOf : PRItem → String)
    (s u : Option Date) (xs ys : List PRItem) (e : TransportError)
    (h : (processItems gh shaOf s u xs).2.2 = some e) :
    processItems gh shaOf s u (xs ++ ys) = processItems gh shaOf s u xs := by
  induction xs with
  | nil => simp [processItems] at h
  | cons pr xs' ih =>
    cases hm : pr.merged_at with
    | none =>
      simp only [processItems, hm, List.cons_append] at h ⊢
      exact ih h
    | some mergedAt =>
      by_cases hb : beforeSince s mergedAt.dt = true
      · simp only [processItems, hm, hb, if_true, List.cons_append] at h ⊢
        exact ih h
      · by_cases ha : afterUntil u mergedAt.dt = true
        · simp only [processItems, hm, hb, ha, if_true, if_false,
            List.cons_append, Bool.false_eq_true] at h ⊢
          exact ih h
        · cases hrev : gh.reviews pr.number with
          | error e₂ =>
            simp only [processItems, hm, hb, ha, hrev, List.cons_append,
              if_false, Bool.false_eq_true]
          | ok reviews =>
            cases hchk : gh.checks (shaOf pr) with
            | error e₂ =>
              simp only [processItems, hm, hb, ha, hrev, hchk,
                List.cons_append, if_false, Bool.false_eq_true]
            | ok checkRuns =>
              simp only [processItems, hm, hb, ha, hrev, hchk,
                List.cons_append, if_false, Bool.false_eq_true] at h ⊢
              simp only [List.append_eq]
              rw [ih h]

theorem mkOkGithub_reviews (trace : List (Except TransportError (List PRItem)))
    (revs : Nat → List Review) (chks : String → List CheckRun) (n : Nat) :
    (mkOkGithub trace revs chks).reviews n = Except.ok (revs n) := rfl

theorem mkOkGithub_checks (trace : List (Except TransportError (List PRItem)))
    (revs : Nat → List Review) (chks : String → List CheckRun) (sha : String) :
    (mkOkGithub trace revs chks).checks sha = Except.ok (chks sha) := rfl

theorem processItems_ok_oracle
    (trace : List (Except TransportError (List PRItem)))
    (revs : Nat → List Review) (chks : String → List CheckRun)
    (shaOf : PRItem → String) (s u : Option Date) (items : List PRItem) :
    processItems (mkOkGithub trace revs chks) shaOf s u items =
      ((items.filter (survives s u)).map (mkRecord revs chks shaOf),
       (items.filter (survives s u)).map shaOf, none) := by
  induction items with
  | nil => simp [processItems]
  | cons pr rest ih =>
    cases hm : pr.merged_at with
    | none =>
      simp only [processItems, hm, List.filter_cons, survives, hm,
        if_false, Bool.false_eq_true]
      exact ih
    | some mergedAt =>
      by_cases hb : beforeSince s mergedAt.dt = true
      · have hsv : survives s u pr = false := by
          simp [survives, hm, passesFilter, hb]
        simp only [processItems, hm, hb, if_true, List.filter_cons, hsv,
          if_false, Bool.false_eq_true]
        exact ih
      · by_cases ha : afterUntil u mergedAt.dt = true
        · have hsv : survives s u pr = false := by
            simp [survives, hm, passesFilter, ha]
          simp only [processItems, hm, hb, ha, if_true, if_false,
            Bool.false_eq_true, List.filter_cons, hsv]
          exact ih
        · have hsv : survives s u pr = true := by
            rw [Bool.not_eq_true] at hb ha
            simp [survives, hm, passesFilter, hb, ha]
          simp only [processItems, hm, hb, ha, if_false, Bool.false_eq_true,
            mkOkGithub_reviews, mkOkGithub_checks, List.filter_cons, hsv,
            if_true, List.map_cons, ih]
          simp [mkRecord, hm]

theorem processItems_cons_review_error (gh : Github) (shaOf : PRItem → String)
    (s u : Option Date) (pr : PRItem) (ys : List PRItem) (e : TransportError)
    (hs : survives s u pr = true)
    (he : gh.reviews pr.number = Except.error e) :
    processItems gh shaOf s u (pr :: ys) = ([], [], some e) := by
  cases hm : pr.merged_at with
  | none => simp [survives, hm] at hs
  | some mergedAt =>
    rw [survives, hm] at hs
    simp only [passesFilter, Bool.and_eq_true, Bool.not_eq_true'] at hs
    simp [processItems, hm, hs.1, hs.2, he]

theorem processItems_cons_check_error (gh : Github) (shaOf : PRItem → String)
    (s u : Option Date) (pr : PRItem) (ys : List PRItem)
    (reviews : List Review) (e : TransportError)
    (hs : survives s u pr = true)
    (hrev : gh.reviews pr.number = Except.ok reviews)
    (hchk : gh.checks (shaOf pr) = Except.error e) :
    processItems gh shaOf s u (pr :: ys) = ([], [shaOf pr], some e) := by
  cases hm : pr.merged_at with
  | none => simp [survives, hm] at hs
  | some mergedAt =>
    rw [survives, hm] at hs
    simp only [passesFilter, Bool.and_eq_true, Bool.not_eq_true'] at hs
    simp [processItems, hm, hs.1, hs.2, hrev, hchk]

/-! ### Page-loop lemmas -/

theorem processPages_empty_head (gh : Github) (shaOf : PRItem → String)
    (s u : Option Date) (perPage : Nat)
    (junk : List (Except TransportError (List PRItem))) (page : Nat) :
    processPages gh shaOf s u perPage (Except.ok [] :: junk) page =
      ([], [listingParams perPage page], [], none) := by
  simp [processPages]

theorem processPages_error_head (gh : Github) (shaOf : PRItem → String)
    (s u : Option Date) (perPage : Nat) (e : TransportError)
    (junk : List (Except TransportError (List PRItem))) (page : Nat) :
    processPages gh shaOf s u perPage (Except.error e :: junk) page =
      ([], [listingParams perPage page], [], some e) := by
  simp [processPages]

theorem processPages_append (gh : Github) (shaOf : PRItem → String)
    (s u : Option Date) (perPage : Nat)
    (pre rest : List (Except TransportError (List PRItem)))
    (h : ConsumesAll gh shaOf s u pre) :
    ∀ page, processPages gh shaOf s u perPage (pre ++ rest) page =
      ((processPages gh shaOf s u perPage pre page).1 ++
         (processPages gh shaOf s u perPage rest (page + pre.length)).1,
       (processPages gh shaOf s u perPage pre page).2.1 ++
         (processPages gh shaOf s u perPage rest (page + pre.length)).2.1,
       (processPages gh shaOf s u perPage pre page).2.2.1 ++
         (processPages gh shaOf s u perPage rest (page + pre.length)).2.2.1,
       (processPages gh shaOf s u perPage rest (page + pre.length)).2.2.2) := by
  induction pre with
  | nil =>
    intro page
    simp [processPages]
  | cons resp pre' ih =>
    intro page
    obtain ⟨data, hresp, hne, herr⟩ := h resp (List.mem_cons_self resp pre')
    subst hresp
    have htail : ConsumesAll gh shaOf s u pre' :=
      fun q hq => h q (List.mem_cons_of_mem _ hq)
    have hie : data.isEmpty = false := by
      cases data with
      | nil => exact absurd rfl hne
      | cons d ds => rfl
    rcases hpi : processItems gh shaOf s u data with ⟨recs, shas, err⟩
    rw [hpi] at herr
    simp only at herr
    subst herr
    have harith : page + 1 + pre'.length = page + (pre'.length + 1) := by omega
    simp only [List.cons_append, processPages, hie, hpi, if_false,
      Bool.false_eq_true, List.append_eq]
    rw [ih htail (page + 1)]
    simp [harith, List.append_assoc]

theorem processPages_requests (gh : Github) (shaOf : PRItem → String)
    (s u : Option Date) (perPage : Nat)
    (pre : List (Except TransportError (List PRItem)))
    (h : ConsumesAll gh shaOf s u pre) :
    ∀ page, (processPages gh shaOf s u perPage pre page).2.1 =
      (List.range' page pre.length).map (listingParams perPage) := by
  induction pre with
  | nil =>
    intro page
    simp [processPages]
  | cons resp pre' ih =>
    intro page
    obtain ⟨data, hresp, hne, herr⟩ := h resp (List.mem_cons_self resp pre')
    subst hresp
    have htail : ConsumesAll gh shaOf s u pre' :=
      fun q hq => h q (List.mem_cons_of_mem _ hq)
    have hie : data.isEmpty = false := by
      cases data with
      | nil => exact absurd rfl hne
      | cons d ds => rfl
    rcases hpi : processItems gh shaOf s u data with ⟨recs, shas, err⟩
    rw [hpi] at herr
    simp only at herr
    subst herr
    simp only [processPages, hie, hpi, if_false, Bool.false_eq_true,
      List.length_cons, List.range'_succ, List.map_cons]
    rw [ih htail (page + 1)]

theorem processPages_records_sound (gh : Github) (shaOf : PRItem → String)
    (s u : Option Date) (perPage : Nat) :
    ∀ trace page r, r ∈ (processPages gh shaOf s u perPage trace page).1 →
      ∃ data, Except.ok data ∈ trace ∧ ∃ pr ∈ data,
        pr.merged_at = some r.MergedAt
        ∧ passesFilter s u r.MergedAt.dt = true := by
  intro trace
  induction trace with
  | nil =>
    intro page r hr
    simp [processPages] at hr
  | cons resp rest ih =>
    intro page r hr
    cases resp with
    | error e =>
      rw [processPages_error_head] at hr
      simp at hr
    | ok data =>
      by_cases hie : data.isEmpty = true
      · simp only [processPages, hie, if_true] at hr
        simp at hr
      · rw [Bool.not_eq_true] at hie
        rcases hpi : processItems gh shaOf s u data with ⟨recs, shas, err⟩
        cases err with
        | some e =>
          simp only [processPages, hie, hpi, if_false, Bool.false_eq_true] at hr
          have hmem : r ∈ (processItems gh shaOf s u data).1 := by
            rw [hpi]
            exact hr
          obtain ⟨pr, hpr, hq⟩ :=
            processItems_records_sound gh shaOf s u data r hmem
          exact ⟨data, List.mem_cons_self _ _, pr, hpr, hq⟩
        | none =>
          simp only [processPages, hie, hpi, if_false, Bool.false_eq_true,
            List.mem_append] at hr
          rcases hr with hr | hr
          · have hmem : r ∈ (processItems gh shaOf s u data).1 := by
              rw [hpi]
              exact hr
            obtain ⟨pr, hpr, hq⟩ :=
              processItems_records_sound gh shaOf s u data r hmem
            exact ⟨data, List.mem_cons_self _ _, pr, hpr, hq⟩
          · obtain ⟨data2, hd2, hq⟩ := ih (page + 1) r hr
            exact ⟨data2, List.mem_cons_of_mem _ hd2, hq⟩

theorem consumesAll_ok_pages (tr : List (Except TransportError (List PRItem)))
    (revs : Nat → List Review) (chks : String → List CheckRun)
    (shaOf : PRItem → String) (s u : Option Date) (pages : List (List PRItem))
    (hne : ∀ p ∈ pages, p ≠ []) :
    ConsumesAll (mkOkGithub tr revs chks) shaOf s u (pages.map Except.ok) := by
  intro resp hresp
  obtain ⟨p, hp, hpe⟩ := List.mem_map.mp hresp
  subst hpe
  exact ⟨p, rfl, hne p hp, by rw [processItems_ok_oracle]⟩

theorem processPages_ok_pages (tr : List (Except TransportError (List PRItem)))
    (revs : Nat → List Review) (chks : String → List CheckRun)
    (shaOf : PRItem → String) (s u : Option Date) (perPage : Nat)
    (pages : List (List PRItem)) (hne : ∀ p ∈ pages, p ≠ []) :
    ∀ page, processPages (mkOkGithub tr revs chks) shaOf s u perPage
        (pages.map Except.ok) page =
      ((pages.flatten.filter (survives s u)).map (mkRecord revs chks shaOf),
       (List.range' page pages.length).map (listingParams perPage),
       (pages.flatten.filter (survives s u)).map shaOf,
       none) := by
  induction pages with
  | nil =>
    intro page
    simp [processPages]
  | cons pg rest ih =>
    intro page
    have hpg : pg ≠ [] := hne pg (List.mem_cons_self pg rest)
    have htail : ∀ p ∈ rest, p ≠ [] := fun p hp =>
      hne p (List.mem_cons_of_mem _ hp)
    have hie : pg.isEmpty = false := by
      cases pg with
      | nil => exact absurd rfl hpg
      | cons d ds => rfl
    simp only [List.map_cons, processPages, hie, if_false, Bool.false_eq_true,
      processItems_ok_oracle]
    rw [ih htail (page + 1)]
    simp [List.flatten_cons, List.filter_append, List.map_append,
      List.range'_succ]

theorem processItems_oracle_only (gh gh' : Github)
    (hrev : gh'.reviews = gh.reviews) (hchk : gh'.checks = gh.checks)
    (shaOf : PRItem → String) (s u : Option Date) (items : List PRItem) :
    processItems gh' shaOf s u items = processItems gh shaOf s u items := by
  induction items with
  | nil => rfl
  | cons pr rest ih =>
    simp only [processItems, hrev, hchk, ih]

theorem processPages_oracle_only (gh gh' : Github)
    (hrev : gh'.reviews = gh.reviews) (hchk : gh'.checks = gh.checks)
    (shaOf : PRItem → String) (s u : Option Date) (perPage : Nat) :
    ∀ trace page, processPages gh' shaOf s u perPage trace page =
      processPages gh shaOf s u perPage trace page := by
  intro trace
  induction trace with
  | nil => intro page; rfl
  | cons resp rest ih =>
    intro page
    simp only [processPages,
      processItems_oracle_only gh gh' hrev hchk shaOf s u, ih]

theorem consumesAll_listing_irrel (gh : Github)
    (L : List (Except TransportError (List PRItem)))
    (shaOf : PRItem → String) (s u : Option Date)
    (pre : List (Except TransportError (List PRItem)))
    (h : ConsumesAll gh shaOf s u pre) :
    ConsumesAll { gh with listing := L } shaOf s u pre := by
  intro resp hresp
  obtain ⟨d, h1, h2, h3⟩ := h resp hresp
  refine ⟨d, h1, h2, ?_⟩
  rw [processItems_oracle_only gh { gh with listing := L } rfl rfl]
  exact h3

/-! ### Claim C3 -/

/-- C3: every record of a snapshot originates from a listed pull-request item
whose `merged_at` is non-null (so closed-but-unmerged PRs never contribute a
record), and its merge timestamp passes the configured window: not before
midnight of `sinceDate` and not after midnight of `untilDate`, whenever those
bounds are set. -/
theorem C3_snapshot_window_invariant (gh : Github) (perPage : Nat)
    (s u : Option Date) (r : PRRecord)
    (hr : r ∈ (Extract.getMergedPRs gh perPage s u).records) :
    (∃ data, Except.ok data ∈ gh.listing ∧ ∃ pr ∈ data,
        pr.merged_at = some r.MergedAt)
    ∧ passesFilter s u r.MergedAt.dt = true
    ∧ (∀ sd, s = some sd → DateTime.lt r.MergedAt.dt sd.midnight = false)
    ∧ (∀ ud, u = some ud → DateTime.lt ud.midnight r.MergedAt.dt = false) := by
  have hrec : r ∈
      (processPages gh (fun pr => pr.head_sha) s u perPage gh.listing 1).1 :=
    hr
  obtain ⟨data, hd, pr, hpr, hm, hp⟩ :=
    processPages_records_sound gh _ s u perPage gh.listing 1 r hrec
  have hp2 := hp
  simp only [passesFilter, Bool.and_eq_true, Bool.not_eq_true'] at hp2
  refine ⟨⟨data, hd, pr, hpr, hm⟩, hp, ?_, ?_⟩
  · intro sd hs
    subst hs
    simpa [beforeSince] using hp2.1
  · intro ud hu
    subst hu
    simpa [afterUntil] using hp2.2

theorem C3_snapshot_window_invariant_witness :
    recJan2 ∈ (Extract.getMergedPRs ghSample 100 none none).records
    ∧ passesFilter none none recJan2.MergedAt.dt = true := by
  have hmem : recJan2 ∈ (Extract.getMergedPRs ghSample 100 none none).records :=
    by decide
  exact ⟨hmem,
    (C3_snapshot_window_invariant ghSample 100 none none recJan2 hmem).2.1⟩

/-! ### Claim C4 -/

/-- C4: the snapshot write (`json.dump`) happens exactly once per invocation
on every path; when the listing request for the page after a cleanly consumed
prefix fails, or when a surviving item's review request fails, or when a
surviving item's check-run request fails, extraction halts at that point
(later pages and items are never examined), the failure is surfaced
(`error = some e`, the diagnostic the `except` handler logs), and the records
assembled before the failure are exactly what is written. -/
theorem C4_transport_failure_policy :
    (∀ (gh : Github) (perPage : Nat) (s u : Option Date),
      (Extract.getMergedPRs gh perPage s u).writes = 1)
    ∧ (∀ (gh : Github) pre (e : TransportError) junk (perPage : Nat)
        (s u : Option Date),
        ConsumesAll gh (fun pr => pr.head_sha) s u pre →
        (Extract.getMergedPRs
            { gh with listing := pre ++ Except.error e :: junk } perPage s u
          = Extract.getMergedPRs
            { gh with listing := pre ++ [Except.error e] } perPage s u)
        ∧ (Extract.getMergedPRs
            { gh with listing := pre ++ Except.error e :: junk }
            perPage s u).error = some e
        ∧ (Extract.getMergedPRs
            { gh with listing := pre ++ Except.error e :: junk }
            perPage s u).records
          = (Extract.getMergedPRs { gh with listing := pre }
              perPage s u).records)
    ∧ (∀ (gh : Github) pre (xs : List PRItem) (badPr : PRItem)
        (ys : List PRItem) junk (e : TransportError) (perPage : Nat)
        (s u : Option Date),
        ConsumesAll gh (fun pr => pr.head_sha) s u pre →
        (processItems gh (fun pr => pr.head_sha) s u xs).2.2 = none →
        survives s u badPr = true →
        gh.reviews badPr.number = Except.error e →
        (Extract.getMergedPRs
            { gh with listing := pre ++ Except.ok (xs ++ badPr :: ys) :: junk }
            perPage s u
          = Extract.getMergedPRs
            { gh with listing := pre ++ [Except.ok (xs ++ [badPr])] }
            perPage s u)
        ∧ (Extract.getMergedPRs
            { gh with listing := pre ++ Except.ok (xs ++ badPr :: ys) :: junk }
            perPage s u).error = some e
        ∧ (Extract.getMergedPRs
            { gh with listing := pre ++ Except.ok (xs ++ badPr :: ys) :: junk }
            perPage s u).records
          = (Extract.getMergedPRs { gh with listing := pre }
              perPage s u).records
            ++ (processItems gh (fun pr => pr.head_sha) s u xs).1)
    ∧ (∀ (gh : Github) pre (xs : List PRItem) (badPr : PRItem)
        (ys : List PRItem) junk (reviews : List Review) (e : TransportError)
        (perPage : Nat) (s u : Option Date),
        ConsumesAll gh (fun pr => pr.head_sha) s u pre →
        (processItems gh (fun pr => pr.head_sha) s u xs).2.2 = none →
        survives s u badPr = true →
        gh.reviews badPr.number = Except.ok reviews →
        gh.checks badPr.head_sha = Except.error e →
        (Extract.getMergedPRs
            { gh with listing := pre ++ Except.ok (xs ++ badPr :: ys) :: junk }
            perPage s u
          = Extract.getMergedPRs
            { gh with listing := pre ++ [Except.ok (xs ++ [badPr])] }
            perPage s u)
        ∧ (Extract.getMergedPRs
            { gh with listing := pre ++ Except.ok (xs ++ badPr :: ys) :: junk }
            perPage s u).error = some e
        ∧ (Extract.getMergedPRs
            { gh with listing := pre ++ Except.ok (xs ++ badPr :: ys) :: junk }
            perPage s u).records
          = (Extract.getMergedPRs { gh with listing := pre }
              perPage s u).records
            ++ (processItems gh (fun pr => pr.head_sha) s u xs).1) := by
  refine ⟨fun gh perPage s u => rfl, ?_, ?_, ?_⟩
  · intro gh pre e junk perPage s u hc
    have htrans : ∀ L tr pg,
        processPages { gh with listing := L } (fun pr => pr.head_sha) s u
          perPage tr pg
          = processPages gh (fun pr => pr.head_sha) s u perPage tr pg :=
      fun L => processPages_oracle_only gh { gh with listing := L } rfl rfl
        (fun pr => pr.head_sha) s u perPage
    have e1 : ∀ junk2, processPages gh (fun pr => pr.head_sha) s u perPage
        (pre ++ Except.error e :: junk2) 1 =
        ((processPages gh (fun pr => pr.head_sha) s u perPage pre 1).1,
         (processPages gh (fun pr => pr.head_sha) s u perPage pre 1).2.1
           ++ [listingParams perPage (1 + pre.length)],
         (processPages gh (fun pr => pr.head_sha) s u perPage pre 1).2.2.1,
         some e) := by
      intro junk2
      rw [processPages_append gh (fun pr => pr.head_sha) s u perPage pre
        (Except.error e :: junk2) hc 1, processPages_error_head]
      simp
    refine ⟨?_, ?_, ?_⟩
    · simp only [Extract.getMergedPRs, htrans, e1 junk, e1 []]
    · simp only [Extract.getMergedPRs, htrans, e1 junk]
    · simp only [Extract.getMergedPRs, htrans, e1 junk]
  · intro gh pre xs badPr ys junk e perPage s u hc hxs hsurv he
    have htrans : ∀ L tr pg,
        processPages { gh with listing := L } (fun pr => pr.head_sha) s u
          perPage tr pg
          = processPages gh (fun pr => pr.head_sha) s u perPage tr pg :=
      fun L => processPages_oracle_only gh { gh with listing := L } rfl rfl
        (fun pr => pr.head_sha) s u perPage
    have eitems : ∀ ys2, processItems gh (fun pr => pr.head_sha) s u
        (xs ++ badPr :: ys2) =
        ((processItems gh (fun pr => pr.head_sha) s u xs).1,
         (processItems gh (fun pr => pr.head_sha) s u xs).2.1, some e) := by
      intro ys2
      rw [processItems_append_ok gh (fun pr => pr.head_sha) s u xs
        (badPr :: ys2) hxs,
        processItems_cons_review_error gh (fun pr => pr.head_sha) s u badPr
          ys2 e hsurv he]
      simp
    have hie : ∀ ys2, (xs ++ badPr :: ys2).isEmpty = false := by
      intro ys2
      cases xs <;> rfl
    have epage : ∀ ys2 junk2 pg, processPages gh (fun pr => pr.head_sha) s u
        perPage (Except.ok (xs ++ badPr :: ys2) :: junk2) pg =
        ((processItems gh (fun pr => pr.head_sha) s u xs).1,
         [listingParams perPage pg],
         (processItems gh (fun pr => pr.head_sha) s u xs).2.1, some e) := by
      intro ys2 junk2 pg
      simp only [processPages, hie ys2, eitems ys2, if_false,
        Bool.false_eq_true]
    have e1 : ∀ ys2 junk2, processPages gh (fun pr => pr.head_sha) s u perPage
        (pre ++ Except.ok (xs ++ badPr :: ys2) :: junk2) 1 =
        ((processPages gh (fun pr => pr.head_sha) s u perPage pre 1).1
           ++ (processItems gh (fun pr => pr.head_sha) s u xs).1,
         (processPages gh (fun pr => pr.head_sha) s u perPage pre 1).2.1
           ++ [listingParams perPage (1 + pre.length)],
         (processPages gh (fun pr => pr.head_sha) s u perPage pre 1).2.2.1
           ++ (processItems gh (fun pr => pr.head_sha) s u xs).2.1,
         some e) := by
      intro ys2 junk2
      rw [processPages_append gh (fun pr => pr.head_sha) s u perPage pre
        (Except.ok (xs ++ badPr :: ys2) :: junk2) hc 1, epage ys2 junk2]
    have hsingle : pre ++ [Except.ok (xs ++ [badPr])]
        = pre ++ Except.ok (xs ++ badPr :: []) :: [] := rfl
    refine ⟨?_, ?_, ?_⟩
    · rw [hsingle]
      simp only [Extract.getMergedPRs, htrans, e1 ys junk, e1 [] []]
    · simp only [Extract.getMergedPRs, htrans, e1 ys junk]
    · simp only [Extract.getMergedPRs, htrans, e1 ys junk]
  · intro gh pre xs badPr ys junk reviews e perPage s u hc hxs hsurv hrev hchk
    have htrans : ∀ L tr pg,
        processPages { gh with listing := L } (fun pr => pr.head_sha) s u
          perPage tr pg
          = processPages gh (fun pr => pr.head_sha) s u perPage tr pg :=
      fun L => processPages_oracle_only gh { gh with listing := L } rfl rfl
        (fun pr => pr.head_sha) s u perPage
    have eitems : ∀ ys2, processItems gh (fun pr => pr.head_sha) s u
        (xs ++ badPr :: ys2) =
        ((processItems gh (fun pr => pr.head_sha) s u xs).1,
         (processItems gh (fun pr => pr.head_sha) s u xs).2.1
           ++ [badPr.head_sha], some e) := by
      intro ys2
      rw [processItems_append_ok gh (fun pr => pr.head_sha) s u xs
        (badPr :: ys2) hxs,
        processItems_cons_check_error gh (fun pr => pr.head_sha) s u badPr
          ys2 reviews e hsurv hrev hchk]
      simp
    have hie : ∀ ys2, (xs ++ badPr :: ys2).isEmpty = false := by
      intro ys2
      cases xs <;> rfl
    have epage : ∀ ys2 junk2 pg, processPages gh (fun pr => pr.head_sha) s u
        perPage (Except.ok (xs ++ badPr :: ys2) :: junk2) pg =
        ((processItems gh (fun pr => pr.head_sha) s u xs).1,
         [listingParams perPage pg],
         (processItems gh (fun pr => pr.head_sha) s u xs).2.1
           ++ [badPr.head_sha], some e) := by
      intro ys2 junk2 pg
      simp only [processPages, hie ys2, eitems ys2, if_false,
        Bool.false_eq_true]
    have e1 : ∀ ys2 junk2, processPages gh (fun pr => pr.head_sha) s u perPage
        (pre ++ Except.ok (xs ++ badPr :: ys2) :: junk2) 1 =
        ((processPages gh (fun pr => pr.head_sha) s u perPage pre 1).1
           ++ (processItems gh (fun pr => pr.head_sha) s u xs).1,
         (processPages gh (fun pr => pr.head_sha) s u perPage pre 1).2.1
           ++ [listingParams perPage (1 + pre.length)],
         (processPages gh (fun pr => pr.head_sha) s u perPage pre 1).2.2.1
           ++ ((processItems gh (fun pr => pr.head_sha) s u xs).2.1
             ++ [badPr.head_sha]),
         some e) := by
      intro ys2 junk2
      rw [processPages_append gh (fun pr => pr.head_sha) s u perPage pre
        (Except.ok (xs ++ badPr :: ys2) :: junk2) hc 1, epage ys2 junk2]
    have hsingle : pre ++ [Except.ok (xs ++ [badPr])]
        = pre ++ Except.ok (xs ++ badPr :: []) :: [] := rfl
    refine ⟨?_, ?_, ?_⟩
    · rw [hsingle]
      simp only [Extract.getMergedPRs, htrans, e1 ys junk, e1 [] []]
    · simp only [Extract.getMergedPRs, htrans, e1 ys junk]
    · simp only [Extract.getMergedPRs, htrans, e1 ys junk]

theorem C4_transport_failure_policy_witness :
    (Extract.getMergedPRs ghRevErr 100 none none).error
      = some TransportError.network
    ∧ (Extract.getMergedPRs ghChkErr 100 none none).error
      = some TransportError.network
    ∧ (Extract.getMergedPRs ghRevErr 100 none none).writes = 1 := by
  refine ⟨?_, ?_, C4_transport_failure_policy.1 ghRevErr 100 none none⟩
  · have h := (C4_transport_failure_policy.2.2.1 ghRevErr [] [] prJan2 [] []
      TransportError.network 100 none none
      (fun resp hresp => absurd hresp (List.not_mem_nil resp))
      rfl (by decide) rfl).2.1
    exact h
  · have h := (C4_transport_failure_policy.2.2.2 ghChkErr [] [] prJan2 [] []
      okReviews TransportError.network 100 none none
      (fun resp hresp => absurd hresp (List.not_mem_nil resp))
      rfl (by decide) rfl rfl).2.1
    exact h

/-! ### Claim C5 -/

theorem processPages_full_scan (revs : Nat → List Review)
    (chks : String → List CheckRun) (shaOf : PRItem → String)
    (s u : Option Date) (perPage : Nat) (pages : List (List PRItem))
    (junk : List (Except TransportError (List PRItem)))
    (hne : ∀ p ∈ pages, p ≠ []) :
    processPages (mkOkGithub (pages.map Except.ok ++ Except.ok [] :: junk)
        revs chks) shaOf s u perPage
        (pages.map Except.ok ++ Except.ok [] :: junk) 1 =
      ((pages.flatten.filter (survives s u)).map (mkRecord revs chks shaOf),
       (List.range' 1 (pages.length + 1)).map (listingParams perPage),
       (pages.flatten.filter (survives s u)).map shaOf,
       none) := by
  rw [processPages_append _ shaOf s u perPage (pages.map Except.ok)
      (Except.ok [] :: junk)
      (consumesAll_ok_pages _ revs chks shaOf s u pages hne) 1,
    processPages_empty_head, processPages_ok_pages _ revs chks shaOf s u
      perPage pages hne 1]
  simp [List.range'_concat, Nat.add_comm]

theorem mkOkGithub_listing (tr : List (Except TransportError (List PRItem)))
    (revs : Nat → List Review) (chks : String → List CheckRun) :
    (mkOkGithub tr revs chks).listing = tr := rfl

/-- C5: when the listing returns `N` non-empty pages followed by an empty
page and no transport call fails, the page loop requests exactly pages
`1 … N+1` in order (the `N` full pages plus the single empty terminator),
nothing after the empty page is ever requested, and the per-item date window
has no effect on which pages are requested. -/
theorem C5_pagination_terminates (revs : Nat → List Review)
    (chks : String → List CheckRun) (pages : List (List PRItem))
    (junk : List (Except TransportError (List PRItem)))
    (perPage : Nat) (s u : Option Date) (hne : ∀ p ∈ pages, p ≠ []) :
    Extract.getMergedPRs
        (mkOkGithub (pages.map Except.ok ++ Except.ok [] :: junk) revs chks)
        perPage s u
      = Extract.getMergedPRs
        (mkOkGithub (pages.map Except.ok ++ [Except.ok []]) revs chks)
        perPage s u
    ∧ (Extract.getMergedPRs
        (mkOkGithub (pages.map Except.ok ++ Except.ok [] :: junk) revs chks)
        perPage s u).requests
      = (List.range' 1 (pages.length + 1)).map (listingParams perPage)
    ∧ (Extract.getMergedPRs
        (mkOkGithub (pages.map Except.ok ++ Except.ok [] :: junk) revs chks)
        perPage s u).requests
      = (Extract.getMergedPRs
          (mkOkGithub (pages.map Except.ok ++ Except.ok [] :: junk) revs chks)
          perPage none none).requests := by
  have hfull : ∀ (s' u' : Option Date) junk2,
      processPages (mkOkGithub (pages.map Except.ok ++ Except.ok [] :: junk2)
          revs chks) (fun pr => pr.head_sha) s' u' perPage
          (pages.map Except.ok ++ Except.ok [] :: junk2) 1 =
        ((pages.flatten.filter (survives s' u')).map
            (mkRecord revs chks (fun pr => pr.head_sha)),
         (List.range' 1 (pages.length + 1)).map (listingParams perPage),
         (pages.flatten.filter (survives s' u')).map (fun pr => pr.head_sha),
         none) :=
    fun s' u' junk2 => processPages_full_scan revs chks (fun pr => pr.head_sha)
      s' u' perPage pages junk2 hne
  refine ⟨?_, ?_, ?_⟩
  · simp only [Extract.getMergedPRs, mkOkGithub_listing, hfull s u junk,
      hfull s u []]
  · simp only [Extract.getMergedPRs, mkOkGithub_listing, hfull s u junk]
  · simp only [Extract.getMergedPRs, mkOkGithub_listing, hfull s u junk,
      hfull none none junk]

theorem C5_pagination_terminates_witness :
    ([prJan2] ≠ [] ∧
      (Extract.getMergedPRs
        (mkOkGithub ([[prJan2]].map Except.ok
            ++ Except.ok [] :: [Except.error TransportError.network])
          (fun _ => okReviews) (fun _ => okChecks)) 100 none none).requests
      = (List.range' 1 2).map (listingParams 100)) :=
  ⟨by decide,
   (C5_pagination_terminates (fun _ => okReviews) (fun _ => okChecks)
      [[prJan2]] [Except.error TransportError.network] 100 none none
      (by intro p hp
          simp only [List.mem_singleton] at hp
          subst hp
          decide)).2.1⟩

/-! ### Claim C9 -/

/-- C9 counterexample: under the same oracle, the src/extraction.py variant
requests check runs for `prJan2` with the merge-commit SHA `"mergesha"`, not
with the head-commit SHA `"headsha"`; so it is not the case that both
extraction implementations pass the head commit SHA to the check
aggregator. -/
theorem C9_check_sha_counterexample :
    prJan2.head_sha = "headsha"
    ∧ prJan2.merge_commit_sha = "mergesha"
    ∧ (Extract.getMergedPRs ghSample 100 none none).checkShas = ["headsha"]
    ∧ (Extraction.getMergedPRs ghSample 100 none none).checkShas = ["mergesha"]
    ∧ (Extraction.getMergedPRs ghSample 100 none none).checkShas
        ≠ [prJan2.head_sha] := by
  refine ⟨rfl, rfl, by decide, by decide, by decide⟩

/-- C9 amended: for every surviving item, src/extract.py invokes the check
aggregator with the item's head commit SHA, while src/extraction.py invokes
it with the item's merge-commit SHA (one call per surviving item, in scan
order, in both variants). -/
theorem C9_check_sha_per_variant (revs : Nat → List Review)
    (chks : String → List CheckRun) (pages : List (List PRItem))
    (junk : List (Except TransportError (List PRItem)))
    (perPage : Nat) (s u : Option Date) (hne : ∀ p ∈ pages, p ≠ []) :
    (Extract.getMergedPRs
        (mkOkGithub (pages.map Except.ok ++ Except.ok [] :: junk) revs chks)
        perPage s u).checkShas
      = (pages.flatten.filter (survives s u)).map (fun pr => pr.head_sha)
    ∧ (Extraction.getMergedPRs
        (mkOkGithub (pages.map Except.ok ++ Except.ok [] :: junk) revs chks)
        perPage s u).checkShas
      = (pages.flatten.filter (survives s u)).map
          (fun pr => pr.merge_commit_sha) := by
  constructor
  · simp only [Extract.getMergedPRs, mkOkGithub_listing,
      processPages_full_scan revs chks (fun pr => pr.head_sha) s u perPage
        pages junk hne]
  · simp only [Extraction.getMergedPRs, mkOkGithub_listing,
      processPages_full_scan revs chks (fun pr => pr.merge_commit_sha) s u
        perPage pages junk hne]

theorem C9_check_sha_per_variant_witness :
    ([prJan2] ≠ []) ∧
    (Extraction.getMergedPRs
        (mkOkGithub ([[prJan2]].map Except.ok ++ Except.ok [] :: [])
          (fun _ => okReviews) (fun _ => okChecks)) 100 none none).checkShas
      = ([[prJan2]].flatten.filter (survives none none)).map
          (fun pr => pr.merge_commit_sha) :=
  ⟨by decide,
   (C9_check_sha_per_variant (fun _ => okReviews) (fun _ => okChecks)
      [[prJan2]] [] 100 none none
      (by intro p hp
          simp only [List.mem_singleton] at hp
          subst hp
          decide)).2⟩

/-! ### Claim C7 -/

/-- C7 counterexample: `prJan2` is merged at 10:00 on the `untilDate` day
2024-01-02, yet with `untilDate = 2024-01-02` the snapshot is empty — the PR
does not pass the date filter, because the code compares the full merge
timestamp against *midnight* of the until day.  Without a window the same PR
is included, so the exclusion is due to the until bound alone. -/
theorem C7_until_day_counterexample :
    prJan2.merged_at = some ⟨⟨2024, 1, 2, 10, 0, 0⟩⟩
    ∧ (Extract.getMergedPRs ghSample 100 none (some ⟨2024, 1, 2⟩)).records = []
    ∧ (Extract.getMergedPRs ghSample 100 none none).records = [recJan2] := by
  refine ⟨rfl, by decide, by decide⟩

/-- C7 amended: both bounds are compared against midnight (00:00:00) of the
configured calendar date.  Consequently the `sinceDate` day is inclusive in
full — a merge at any time of day on the since day passes the lower bound —
while for `untilDate` only a merge at exactly 00:00:00 on that day passes;
any later time on the until day is filtered out. -/
theorem C7_amended_midnight_bounds :
    (∀ (sd : Date) (t : DateTime),
      t.year = sd.year → t.month = sd.month → t.day = sd.day →
      beforeSince (some sd) t = false)
    ∧ (∀ ud : Date, afterUntil (some ud) ud.midnight = false)
    ∧ (∀ (ud : Date) (t : DateTime),
      t.year = ud.year → t.month = ud.month → t.day = ud.day →
      (t.hour ≠ 0 ∨ t.minute ≠ 0 ∨ t.second ≠ 0) →
      afterUntil (some ud) t = true) := by
  refine ⟨?_, ?_, ?_⟩
  · intro sd t h1 h2 h3
    obtain ⟨ty, tm, td, th, tmi, tsec⟩ := t
    simp only at h1 h2 h3
    subst h1
    subst h2
    subst h3
    simp only [beforeSince, Date.midnight, DateTime.lt]
    split_ifs <;> simp_all
  · intro ud
    simp [afterUntil, Date.midnight, DateTime.lt]
  · intro ud t h1 h2 h3 hne
    obtain ⟨ty, tm, td, th, tmi, tsec⟩ := t
    simp only at h1 h2 h3 hne
    subst h1
    subst h2
    subst h3
    by_cases hth : th = 0
    · by_cases htmi : tmi = 0
      · have htsec : tsec ≠ 0 := by
          rcases hne with h | h | h
          · exact absurd hth h
          · exact absurd htmi h
          · exact h
        subst hth
        subst htmi
        simp [afterUntil, Date.midnight, DateTime.lt,
          Nat.pos_of_ne_zero htsec]
      · have h0 : (0 : Nat) ≠ tmi := fun h => htmi h.symm
        subst hth
        simp [afterUntil, Date.midnight, DateTime.lt, h0,
          Nat.pos_of_ne_zero htmi]
    · have h0 : (0 : Nat) ≠ th := fun h => hth h.symm
      simp [afterUntil, Date.midnight, DateTime.lt, h0,
        Nat.pos_of_ne_zero hth]

theorem C7_amended_midnight_bounds_witness :
    beforeSince (some ⟨2024, 1, 2⟩) ⟨2024, 1, 2, 23, 59, 59⟩ = false
    ∧ afterUntil (some ⟨2024, 1, 2⟩) ⟨2024, 1, 2, 10, 0, 0⟩ = true :=
  ⟨C7_amended_midnight_bounds.1 ⟨2024, 1, 2⟩ ⟨2024, 1, 2, 23, 59, 59⟩
     rfl rfl rfl,
   C7_amended_midnight_bounds.2.2 ⟨2024, 1, 2⟩ ⟨2024, 1, 2, 10, 0, 0⟩
     rfl rfl rfl (Or.inl (by decide))⟩

/-! ### Claim C8 -/

theorem processPages_requests_shape (gh : Github) (shaOf : PRItem → String)
    (s u : Option Date) (perPage : Nat) :
    ∀ trace page req,
      req ∈ (processPages gh shaOf s u perPage trace page).2.1 →
      ∃ p, req = listingParams perPage p := by
  intro trace
  induction trace with
  | nil =>
    intro page req hreq
    simp [processPages] at hreq
  | cons resp rest ih =>
    intro page req hreq
    cases resp with
    | error e =>
      rw [processPages_error_head] at hreq
      simp only [List.mem_singleton] at hreq
      exact ⟨page, hreq⟩
    | ok data =>
      by_cases hie : data.isEmpty = true
      · simp only [processPages, hie, if_true, List.mem_singleton] at hreq
        exact ⟨page, hreq⟩
      · rw [Bool.not_eq_true] at hie
        rcases hpi : processItems gh shaOf s u data with ⟨recs, shas, err⟩
        cases err with
        | some e =>
          simp only [processPages, hie, hpi, if_false, Bool.false_eq_true,
            List.mem_singleton] at hreq
          exact ⟨page, hreq⟩
        | none =>
          simp only [processPages, hie, hpi, if_false, Bool.false_eq_true,
            List.mem_cons] at hreq
          rcases hreq with hreq | hreq
          · exact ⟨page, hreq⟩
          · exact ih (page + 1) req hreq

/-- C8: every pull-request listing request carries exactly the query keys
`state`, `perPage` and `page` — with `state=closed`, `perPage` set to the
configured page size and `page` set to the current page number.  The key
`per_page` named by the specification's external-interface table is *not*
among them: the code spells the page-size key `perPage`, which the GitHub
API does not recognise. -/
theorem C8_listing_query_params (gh : Github) (perPage : Nat)
    (s u : Option Date) (req : List (String × String))
    (hreq : req ∈ (Extract.getMergedPRs gh perPage s u).requests) :
    req.map Prod.fst = ["state", "perPage", "page"]
    ∧ "per_page" ∉ req.map Prod.fst
    ∧ ("state", "closed") ∈ req
    ∧ ("perPage", toString perPage) ∈ req
    ∧ ∃ p, ("page", toString p) ∈ req ∧ req = listingParams perPage p := by
  have hreq2 : req ∈
      (processPages gh (fun pr => pr.head_sha) s u perPage gh.listing 1).2.1 :=
    hreq
  obtain ⟨p, hp⟩ := processPages_requests_shape gh (fun pr => pr.head_sha)
    s u perPage gh.listing 1 req hreq2
  subst hp
  have hkeys : (listingParams perPage p).map Prod.fst
      = ["state", "perPage", "page"] := rfl
  refine ⟨hkeys, ?_, by simp [listingParams], by simp [listingParams],
    p, by simp [listingParams], rfl⟩
  rw [hkeys]
  decide

theorem C8_listing_query_params_witness :
    listingParams 100 1 ∈ (Extract.getMergedPRs ghSample 100 none none).requests
    ∧ "per_page" ∉ (listingParams 100 1).map Prod.fst :=
  ⟨by decide,
   (C8_listing_query_params ghSample 100 none none (listingParams 100 1)
      (by decide)).2.1⟩

/-! ### Claims C6 and C10 -/

theorem transformPRData_ne (rows : List PRRecord) (h : rows ≠ []) :
    transformPRData rows = rows.map transformRow := by
  cases rows with
  | nil => exact absurd rfl h
  | cons r rs => rfl

/-- C6: on a non-empty snapshot, the transform emits one row per record in
input order; each row's `AllQualityGatesPassed` is the conjunction of the
record's `CR_Passed` and `Checks_Passed` (true exactly for the true/true
combination) and its `TimeToMerge` is `MergedAt − CreatedAt`, both timestamps
first normalized to timezone-naive UTC (`tz_localize(None)`). -/
theorem C6_transform_derived_columns (rows : List PRRecord)
    (hne : rows ≠ []) :
    (transformPRData rows).length = rows.length
    ∧ ∀ i, i < rows.length → ∃ r tr,
        rows[i]? = some r
        ∧ (transformPRData rows)[i]? = some tr
        ∧ tr.AllQualityGatesPassed = (r.CR_Passed && r.Checks_Passed)
        ∧ (tr.AllQualityGatesPassed = true
            ↔ r.CR_Passed = true ∧ r.Checks_Passed = true)
        ∧ tr.TimeToMerge = toEpochSec (tz_localize_none r.MergedAt)
            - toEpochSec (tz_localize_none r.CreatedAt) := by
  have ht := transformPRData_ne rows hne
  constructor
  · rw [ht]
    simp
  · intro i hi
    have hsome : rows[i]? = some (rows.get ⟨i, hi⟩) := by
      simp [List.getElem?_eq_getElem hi]
    refine ⟨rows.get ⟨i, hi⟩, transformRow (rows.get ⟨i, hi⟩), hsome, ?_,
      rfl, ?_, rfl⟩
    · rw [ht, List.getElem?_map, hsome]
      rfl
    · show ((rows.get ⟨i, hi⟩).CR_Passed
          && (rows.get ⟨i, hi⟩).Checks_Passed) = true ↔ _
      rw [Bool.and_eq_true]

theorem C6_transform_derived_columns_witness :
    [recJan2] ≠ [] ∧ (transformPRData [recJan2]).length = 1 :=
  ⟨by decide, (C6_transform_derived_columns [recJan2] (by decide)).1⟩

/-- C10: on a non-empty snapshot, the transform emits exactly one output row
per input record, and each row's `PRNum`, `Title`, `Author`,
`Num_Reviewers` (and the two quality booleans) are identical to the
corresponding input record's; only the timestamp columns are re-parsed and
the two derived columns added. -/
theorem C10_transform_frame (rows : List PRRecord) (hne : rows ≠ []) :
    (transformPRData rows).length = rows.length
    ∧ ∀ i, i < rows.length → ∃ r tr,
        rows[i]? = some r
        ∧ (transformPRData rows)[i]? = some tr
        ∧ tr.PRNum = r.PRNum
        ∧ tr.Title = r.Title
        ∧ tr.Author = r.Author
        ∧ tr.Num_Reviewers = r.Num_Reviewers
        ∧ tr.CR_Passed = r.CR_Passed
        ∧ tr.Checks_Passed = r.Checks_Passed := by
  have ht := transformPRData_ne rows hne
  constructor
  · rw [ht]
    simp
  · intro i hi
    have hsome : rows[i]? = some (rows.get ⟨i, hi⟩) := by
      simp [List.getElem?_eq_getElem hi]
    refine ⟨rows.get ⟨i, hi⟩, transformRow (rows.get ⟨i, hi⟩), hsome, ?_,
      rfl, rfl, rfl, rfl, rfl, rfl⟩
    rw [ht, List.getElem?_map, hsome]
    rfl

theorem C10_transform_frame_witness :
    [recJan2] ≠ [] ∧ (transformPRData [recJan2]).length = 1 ∧
      (transformPRData [recJan2])[0]? = some (transformRow recJan2) :=
  ⟨by decide, (C10_transform_frame [recJan2] (by decide)).1, by decide⟩
